import Mathlib

/-!
Verification of the distributary migration planner and controller against its
natural-language specification.  Rust sources are shallowly embedded: graphs
become lists of node records plus edge lists, fallible or panicking code
returns `Except`, and worklist loops take explicit fuel.
-/

set_option maxHeartbeats 1600000

namespace Distributary

namespace Planner

/-- Operator payload for the planner graph.  The only part of the
`DataflowOperator` trait that `Plan::add_node` consults is `ancestors()`
(src/planner/src/lib.rs:143), so the payload is its reported ancestor list. -/
structure OpF where
  ancestors : List Nat
deriving Repr, DecidableEq

/-- `Operator<F>` (src/planner/src/lib.rs:29-36). -/
inductive POperator where
  | reader
  | sharder
  | egress
  | ingress
  | inner (f : OpF)
deriving Repr, DecidableEq

/-- `DataflowNode<F>` (src/planner/src/lib.rs:38-46).  The replay-tag sets,
partial flag and sharding descriptor are defaulted on construction and not
consulted by `add_node`/`maintain`/`commit`, so only the operator and the
index set (a list kept duplicate-free by the `maintain` insert) are carried. -/
structure PNode where
  operator : POperator
  indices : List (List Nat)
deriving Repr, DecidableEq

/-- `DataflowNode::from(f)` (src/planner/src/lib.rs:55-66). -/
def nodeFrom (f : OpF) : PNode :=
  ⟨POperator.inner f, []⟩

/-- `petgraph::Graph<DataflowNode<F>, ()>`: nodes indexed by position,
edges as (source, target) pairs in insertion order. -/
structure PGraph where
  nodes : List PNode
  edges : List (Nat × Nat)
deriving Repr, DecidableEq

/-- The state of a `Plan<F>` (src/planner/src/lib.rs:104-109): the committed
graph behind the `&mut DataflowGraph` borrow, the staged clone `next_graph`,
and the set `new` of staged node indices. -/
structure PlanState where
  committed : PGraph
  nextGraph : PGraph
  newNodes : List Nat
deriving Repr, DecidableEq

/-- `Plan::new` (src/planner/src/lib.rs:115-125): clone the committed graph. -/
def planNew (g : PGraph) : PlanState :=
  ⟨g, g, []⟩

/-- Children of `n` via outgoing edges, in edge order. -/
def outChildren (g : PGraph) (n : Nat) : List Nat :=
  g.edges.filterMap (fun e => if e.1 = n then some e.2 else none)

/-- `Plan::add_node` (src/planner/src/lib.rs:131-159).  Panics (modelled as
`Except.error`) when the reported ancestor list is empty; `petgraph`
`add_edge` panics when an endpoint index is not in the graph. -/
def addNode (p : PlanState) (f : OpF) : Except String (PlanState × Nat) :=
  if f.ancestors.isEmpty then
    Except.error "assertion failed: parents is empty"
  else if f.ancestors.any (fun a => p.nextGraph.nodes.length < a) then
    Except.error "petgraph: edge endpoint not in graph"
  else
    Except.ok
      ({ p with
          nextGraph :=
            { nodes := p.nextGraph.nodes ++ [nodeFrom f]
              edges := p.nextGraph.edges
                ++ f.ancestors.map (fun a => (a, p.nextGraph.nodes.length)) }
          newNodes := p.newNodes ++ [p.nextGraph.nodes.length] },
        p.nextGraph.nodes.length)

/-- The child scan of `Plan::maintain` (src/planner/src/lib.rs:168-185): walk
the children of `n`, fail if a child weight is missing, stop at the first
`Reader` child. -/
def findReaderChild (g : PGraph) : List Nat → Except String (Option Nat)
  | [] => Except.ok none
  | c :: rest =>
    match g.nodes.get? c with
    | none => Except.error "got child node that doesnt exist"
    | some nd =>
      match nd.operator with
      | POperator.reader => Except.ok (some c)
      | _ => findReaderChild g rest

/-- `Plan::maintain` (src/planner/src/lib.rs:164-187): insert `key` into the
indices of the first `Reader` child of `n` in the staged graph; the
`unimplemented!` fall-through becomes an error. -/
def maintain (p : PlanState) (n : Nat) (key : List Nat) : Except String PlanState :=
  match findReaderChild p.nextGraph (outChildren p.nextGraph n) with
  | Except.error e => Except.error e
  | Except.ok none => Except.error "unimplemented: need to add reader"
  | Except.ok (some c) =>
    match p.nextGraph.nodes.get? c with
    | none => Except.error "got child node that doesnt exist"
    | some nd =>
      let nd2 :=
        { nd with
            indices := if key ∈ nd.indices then nd.indices else nd.indices ++ [key] }
      Except.ok
        { p with
            nextGraph := { p.nextGraph with nodes := p.nextGraph.nodes.set c nd2 } }

/-- `Step<N>` (src/planner/src/lib.rs:219-250). -/
inductive Step where
  | spawnReplica (id : Nat) (shards : Nat)
  | installNode (id : Nat) (replica : Nat) (node : PNode)
  | addNodeIndex (replica : Nat) (node : Nat) (columns : List Nat)
  | announcePath (id : Nat) (segments : List (Nat × List (Nat × Option Nat)))
  | triggerFullReplay (replica : Nat) (node : Nat) (path : Nat)
  | awaitReplayCompletion (path : Nat)
  | activateNode (replica : Nat) (node : Nat)
deriving Repr, DecidableEq

/-- `Plan::commit` (src/planner/src/lib.rs:192-202).  The five planning
passes (`plan_materialization`, `make_partial`, `shard`, `assign_domains`,
`network`; their module files are not part of the sources) are abstracted as
arbitrary transformers of the staged graph.  After running them the committed
graph is replaced by the staged graph in a single assignment, and the
returned step list is the literal `Vec::new()` of line 201. -/
def commit (passes : List (PGraph → PGraph)) (p : PlanState) : List Step × PGraph :=
  let staged := passes.foldl (fun g t => t g) p.nextGraph
  ([], staged)

/-- One `Plan` mutation for framing arguments: an `add_node` or a `maintain`. -/
inductive PlanAction where
  | add (f : OpF)
  | maintainKey (n : Nat) (key : List Nat)
deriving Repr, DecidableEq

/-- Run a single plan action. -/
def applyAction (p : PlanState) : PlanAction → Except String PlanState
  | PlanAction.add f =>
    match addNode p f with
    | Except.error e => Except.error e
    | Except.ok (q, _) => Except.ok q
  | PlanAction.maintainKey n k => maintain p n k

/-- Run a sequence of plan actions. -/
def applyActions : PlanState → List PlanAction → Except String PlanState
  | p, [] => Except.ok p
  | p, a :: rest =>
    match applyAction p a with
    | Except.error e => Except.error e
    | Except.ok q => applyActions q rest

end Planner

end Distributary

namespace Distributary

namespace Planner

theorem addNode_committed_eq (p : PlanState) (f : OpF) (q : PlanState) (n : Nat)
    (h : addNode p f = Except.ok (q, n)) : q.committed = p.committed := by
  unfold addNode at h
  split at h
  · exact absurd h (by simp)
  · split at h
    · exact absurd h (by simp)
    · simp only [Except.ok.injEq, Prod.mk.injEq] at h
      rw [← h.1]

theorem maintain_committed_eq (p : PlanState) (n : Nat) (k : List Nat) (q : PlanState)
    (h : maintain p n k = Except.ok q) : q.committed = p.committed := by
  unfold maintain at h
  split at h
  · exact absurd h (by simp)
  · exact absurd h (by simp)
  · split at h
    · exact absurd h (by simp)
    · simp only [Except.ok.injEq] at h
      rw [← h]

theorem applyAction_committed_eq (p : PlanState) (a : PlanAction) (q : PlanState)
    (h : applyAction p a = Except.ok q) : q.committed = p.committed := by
  cases a with
  | add f =>
    simp only [applyAction] at h
    split at h
    · exact absurd h (by simp)
    · rename_i q2 n2 heq
      simp only [Except.ok.injEq] at h
      subst h
      exact addNode_committed_eq p f q2 n2 heq
  | maintainKey n k =>
    exact maintain_committed_eq p n k q h

/-- C2: `Plan::add_node` and `Plan::maintain` mutate only the staged graph:
any successful sequence of them leaves the committed graph of the
`DataflowGraph` unchanged (so dropping the plan without committing changes
nothing), and `Plan::commit` replaces the committed graph with the staged
graph (after the in-commit planning passes) in a single assignment. -/
theorem plan_actions_preserve_committed_graph
    (acts : List PlanAction) (p q : PlanState)
    (h : applyActions p acts = Except.ok q) :
    q.committed = p.committed ∧
      ∀ passes : List (PGraph → PGraph),
        (commit passes q).2 = passes.foldl (fun g t => t g) q.nextGraph := by
  refine ⟨?_, fun passes => rfl⟩
  induction acts generalizing p with
  | nil =>
    unfold applyActions at h
    simp only [Except.ok.injEq] at h
    rw [h]
  | cons a rest ih =>
    unfold applyActions at h
    rcases ha : applyAction p a with e | r
    · rw [ha] at h; exact absurd h (by simp)
    · rw [ha] at h
      exact (ih r h).trans (applyAction_committed_eq p a r ha)

/-- Witness for C2 at a concrete plan: one staged `add_node` over a
single-node committed graph. -/
theorem plan_actions_preserve_committed_graph_spot :
    applyActions (planNew ⟨[nodeFrom ⟨[0]⟩], []⟩) [PlanAction.add ⟨[0]⟩]
        = Except.ok ⟨⟨[nodeFrom ⟨[0]⟩], []⟩,
            ⟨[nodeFrom ⟨[0]⟩, nodeFrom ⟨[0]⟩], [(0, 1)]⟩, [1]⟩ ∧
      (⟨⟨[nodeFrom ⟨[0]⟩], []⟩,
          ⟨[nodeFrom ⟨[0]⟩, nodeFrom ⟨[0]⟩], [(0, 1)]⟩, [1]⟩ : PlanState).committed
        = (planNew ⟨[nodeFrom ⟨[0]⟩], []⟩).committed :=
  ⟨rfl, (plan_actions_preserve_committed_graph [PlanAction.add ⟨[0]⟩]
      (planNew ⟨[nodeFrom ⟨[0]⟩], []⟩)
      ⟨⟨[nodeFrom ⟨[0]⟩], []⟩,
        ⟨[nodeFrom ⟨[0]⟩, nodeFrom ⟨[0]⟩], [(0, 1)]⟩, [1]⟩ rfl).1⟩

/-- C1: `Plan::commit` never returns any `Step`: whatever planning passes run
and whatever was staged (in particular after `add_node` staged new nodes),
the returned list is empty, so it contains no `InstallNode` and no
`ActivateNode` for newly added nodes. -/
theorem commit_returns_no_steps (passes : List (PGraph → PGraph)) (p : PlanState) :
    (commit passes p).1 = [] ∧
      ∀ s : Step, s ∈ (commit passes p).1 → False := by
  exact ⟨rfl, by intro s hs; simp [commit] at hs⟩

/-- C9: for an operator with a non-empty ancestor list (all naming staged
nodes), `add_node` adds exactly one node, one edge from each reported
ancestor to it, records it as new, returns its index, and cannot hit the
empty-ancestors assertion. -/
theorem addNode_spec (p : PlanState) (f : OpF)
    (hne : f.ancestors ≠ [])
    (hval : ∀ a ∈ f.ancestors, a ≤ p.nextGraph.nodes.length) :
    ∃ q, addNode p f = Except.ok (q, p.nextGraph.nodes.length) ∧
      q.nextGraph.nodes = p.nextGraph.nodes ++ [nodeFrom f] ∧
      q.nextGraph.edges
        = p.nextGraph.edges
            ++ f.ancestors.map (fun a => (a, p.nextGraph.nodes.length)) ∧
      q.newNodes = p.newNodes ++ [p.nextGraph.nodes.length] ∧
      q.committed = p.committed := by
  have he : f.ancestors.isEmpty = false := by
    cases hf : f.ancestors with
    | nil => exact absurd hf hne
    | cons x xs => simp [hf]
  have hv : f.ancestors.any (fun a => p.nextGraph.nodes.length < a) = false := by
    rw [List.any_eq_false]
    intro a ha
    simp only [decide_eq_true_eq, Nat.not_lt]
    exact hval a ha
  refine ⟨{ p with
      nextGraph :=
        ⟨p.nextGraph.nodes ++ [nodeFrom f],
          p.nextGraph.edges
            ++ f.ancestors.map (fun a => (a, p.nextGraph.nodes.length))⟩
      newNodes := p.newNodes ++ [p.nextGraph.nodes.length] },
    ?_, rfl, rfl, rfl, rfl⟩
  unfold addNode
  simp only [he, hv, if_false, Bool.false_eq_true]

/-- Witness for C9: adding a node with ancestor list [0] to a plan staged
over a one-node graph. -/
theorem addNode_spec_spot :
    ∃ q, addNode (planNew ⟨[nodeFrom ⟨[0]⟩], []⟩) ⟨[0]⟩ = Except.ok (q, 1) ∧
      q.nextGraph.nodes = [nodeFrom ⟨[0]⟩, nodeFrom ⟨[0]⟩] ∧
      q.nextGraph.edges = [(0, 1)] ∧
      q.newNodes = [1] ∧
      q.committed = ⟨[nodeFrom ⟨[0]⟩], []⟩ := by
  obtain ⟨q, h1, h2, h3, h4, h5⟩ :=
    addNode_spec (planNew ⟨[nodeFrom ⟨[0]⟩], []⟩) ⟨[0]⟩ (by decide)
      (by intro a ha; simp at ha; simp [ha, planNew])
  exact ⟨q, h1, by simpa using h2, by simpa using h3, by simpa using h4,
    by simpa [planNew] using h5⟩

end Planner

end Distributary

namespace Distributary

namespace Ctrl

/-- Snapshot of a `WorkerStatus` at the moment a liveness check runs: the
healthy flag and the elapsed time (abstract ticks) since the last heartbeat
(src/src/controller/inner.rs:27-31). -/
structure WorkerW where
  healthy : Bool
  elapsed : Nat
deriving Repr, DecidableEq

/-- `ControllerInner::check_worker_liveness` (src/src/controller/inner.rs:265-292)
on a snapshot.  The check is gated on `last_checked_workers.elapsed() >
healthcheck_every`; the first sweep sets `any_failed` when some healthy
worker's heartbeat is older than `heartbeat_every * 4`; only then does the
second sweep mark every healthy worker older than `heartbeat_every * 3`
unhealthy and hand the collected identifiers to `handle_failed_workers`.
Returns the updated workers and the failed identifiers (list positions). -/
def checkWorkerLiveness (hb lastCheckedElapsed hcEvery : Nat)
    (ws : List WorkerW) : List WorkerW × List Nat :=
  let anyFailed := decide (hcEvery < lastCheckedElapsed)
    && ws.any (fun v => v.healthy && decide (hb * 4 < v.elapsed))
  if anyFailed then
    (ws.map (fun w =>
        if w.healthy && decide (hb * 3 < w.elapsed) then ⟨false, w.elapsed⟩ else w),
      (List.range ws.length).filter (fun i =>
        match ws.get? i with
        | some w => w.healthy && decide (hb * 3 < w.elapsed)
        | none => false))
  else (ws, [])

/-- `io::ErrorKind` as used by the claims. -/
inductive IoKindM where
  | brokenPipe
  | otherKind
deriving Repr, DecidableEq

/-- `channel::tcp::SendError`: the `IoError` variant carries an `io::Error`
(kind and inner description); every other variant is collapsed. -/
inductive SendErrM where
  | ioError (kind : IoKindM) (desc : String)
  | otherErr
deriving Repr, DecidableEq

/-- A `DomainShardHandle` as seen by `send_to_healthy`: locality flag and the
identifier of the worker the shard is assigned to
(src/src/controller/domain_handle.rs:25-29). -/
structure ShardH where
  isLocal : Bool
  worker : Nat
deriving Repr, DecidableEq

/-- One observable channel transmission. -/
inductive SendEvt where
  | localSend (worker : Nat)
  | remoteSend (worker : Nat)
deriving Repr, DecidableEq

/-- `DomainHandle::send_to_healthy` (src/src/controller/domain_handle.rs:209-229):
iterate the shards; a local shard sends on the local channel; a remote shard
sends only when its worker is healthy; reaching a remote shard whose worker
is unhealthy returns a BrokenPipe error with description "worker failed"
without transmitting to it.  `txFail` models an I/O failure of the
underlying channel send itself (the `?` propagation). -/
def sendToHealthy (health : Nat → Bool) (txFail : Nat → Option SendErrM) :
    List ShardH → List SendEvt × Option SendErrM
  | [] => ([], none)
  | s :: rest =>
    if s.isLocal then
      match txFail s.worker with
      | some e => ([SendEvt.localSend s.worker], some e)
      | none =>
        let r := sendToHealthy health txFail rest
        (SendEvt.localSend s.worker :: r.1, r.2)
    else if health s.worker then
      match txFail s.worker with
      | some e => ([SendEvt.remoteSend s.worker], some e)
      | none =>
        let r := sendToHealthy health txFail rest
        (SendEvt.remoteSend s.worker :: r.1, r.2)
    else
      ([], some (SendErrM.ioError IoKindM.brokenPipe "worker failed"))

/-- Outcome of the error handling in `ControllerInner::remove_nodes`. -/
inductive RemoveOutcome where
  | ok
  | panicked
deriving Repr, DecidableEq

/-- The match on the send result in `ControllerInner::remove_nodes`
(src/src/controller/inner.rs:1013-1034): a failure is swallowed exactly when
it is an `IoError` of kind `BrokenPipe` whose inner description is
"worker failed"; every other failure panics. -/
def removeNodesOutcome : Option SendErrM → RemoveOutcome
  | none => RemoveOutcome.ok
  | some (SendErrM.ioError k d) =>
    if k = IoKindM.brokenPipe ∧ d = "worker failed" then RemoveOutcome.ok
    else RemoveOutcome.panicked
  | some SendErrM.otherErr => RemoveOutcome.panicked

end Ctrl

end Distributary

namespace Distributary

namespace Ctrl

/-- Counterexample to C5 as stated: a single worker whose last heartbeat is
older than 3 x heartbeat_every (7 > 3*2) at a liveness check that runs
(healthcheck interval elapsed), yet it is not marked unhealthy and nothing
is handed to failed-worker handling, because no worker exceeds the 4 x
heartbeat_every trigger of the first sweep. -/
theorem liveness_over_three_h_not_marked :
    2 * 3 < 7 ∧ 1 < 10 ∧
      checkWorkerLiveness 2 10 1 [⟨true, 7⟩] = ([⟨true, 7⟩], []) := by
  refine ⟨by norm_num, by norm_num, ?_⟩
  rfl

/-- C5 (amended): during a liveness check, a worker is marked unhealthy and
handed to failed-worker handling iff the healthcheck interval has elapsed,
some healthy worker's heartbeat is older than 4 x heartbeat_every, and the
worker itself is healthy with a heartbeat older than 3 x heartbeat_every; a
worker whose heartbeat is at most 3 x heartbeat_every old is never marked. -/
theorem checkWorkerLiveness_spec (hb lc hc : Nat) (ws : List WorkerW)
    (i : Nat) (w : WorkerW) (hw : ws.get? i = some w) :
    (i ∈ (checkWorkerLiveness hb lc hc ws).2
      ↔ (hc < lc ∧ (∃ v ∈ ws, v.healthy = true ∧ hb * 4 < v.elapsed)
          ∧ w.healthy = true ∧ hb * 3 < w.elapsed)) ∧
    ((checkWorkerLiveness hb lc hc ws).1.get? i
      = some (if w.healthy = true ∧ hb * 3 < w.elapsed
                  ∧ hc < lc ∧ (∃ v ∈ ws, v.healthy = true ∧ hb * 4 < v.elapsed)
              then ⟨false, w.elapsed⟩ else w)) ∧
    (w.elapsed ≤ hb * 3 → (checkWorkerLiveness hb lc hc ws).1.get? i = some w) := by
  have hlt : i < ws.length := by
    by_contra hge
    rw [List.get?_eq_none.mpr (Nat.le_of_not_lt hge)] at hw
    exact Option.noConfusion hw
  have hexiff : (ws.any fun v => v.healthy && decide (hb * 4 < v.elapsed)) = true
      ↔ (∃ v ∈ ws, v.healthy = true ∧ hb * 4 < v.elapsed) := by
    simp [List.any_eq_true]
  by_cases hA :
      (decide (hc < lc) && ws.any fun v => v.healthy && decide (hb * 4 < v.elapsed)) = true
  · have hA2 := hA
    rw [Bool.and_eq_true, decide_eq_true_eq, hexiff] at hA2
    have hres : checkWorkerLiveness hb lc hc ws
        = (ws.map (fun w =>
            if w.healthy && decide (hb * 3 < w.elapsed) then ⟨false, w.elapsed⟩ else w),
          (List.range ws.length).filter (fun i =>
            match ws.get? i with
            | some w => w.healthy && decide (hb * 3 < w.elapsed)
            | none => false)) := by
      unfold checkWorkerLiveness
      rw [if_pos hA]
    rw [hres]
    refine ⟨?_, ?_, ?_⟩
    · simp only [List.mem_filter, List.mem_range, hw]
      constructor
      · rintro ⟨-, hp⟩
        rw [Bool.and_eq_true, decide_eq_true_eq] at hp
        exact ⟨hA2.1, hA2.2, hp.1, hp.2⟩
      · rintro ⟨-, -, hh, he⟩
        exact ⟨hlt, by rw [Bool.and_eq_true, decide_eq_true_eq]; exact ⟨hh, he⟩⟩
    · rw [List.get?_map, hw, Option.map_some']
      by_cases hm : w.healthy = true ∧ hb * 3 < w.elapsed
      · rw [if_pos (by rw [Bool.and_eq_true, decide_eq_true_eq]; exact hm),
          if_pos ⟨hm.1, hm.2, hA2.1, hA2.2⟩]
      · rw [if_neg (by rw [Bool.and_eq_true, decide_eq_true_eq]; exact hm),
          if_neg (fun hc2 => hm ⟨hc2.1, hc2.2.1⟩)]
    · intro hle
      rw [List.get?_map, hw, Option.map_some',
        if_neg (by
          rw [Bool.and_eq_true, decide_eq_true_eq]
          rintro ⟨-, h3⟩
          exact absurd h3 (Nat.not_lt.mpr hle))]
  · have hres : checkWorkerLiveness hb lc hc ws = (ws, []) := by
      unfold checkWorkerLiveness
      rw [if_neg hA]
    rw [hres]
    refine ⟨?_, ?_, fun _ => hw⟩
    · simp only [List.not_mem_nil, false_iff]
      rintro ⟨h1, h2, -, -⟩
      exact hA (by rw [Bool.and_eq_true, decide_eq_true_eq, hexiff]; exact ⟨h1, h2⟩)
    · rw [hw, if_neg ?_]
      rintro ⟨-, -, h1, h2⟩
      exact hA (by rw [Bool.and_eq_true, decide_eq_true_eq, hexiff]; exact ⟨h1, h2⟩)

/-- Witness for C5 (amended) at a concrete worker list: two workers, one past
4 x heartbeat_every, both past 3 x heartbeat_every, both marked. -/
theorem checkWorkerLiveness_spec_spot :
    (0 ∈ (checkWorkerLiveness 2 10 1 [⟨true, 7⟩, ⟨true, 9⟩]).2
      ↔ (1 < 10 ∧ (∃ v ∈ [(⟨true, 7⟩ : WorkerW), ⟨true, 9⟩], v.healthy = true ∧ 2 * 4 < v.elapsed)
          ∧ (true = true) ∧ 2 * 3 < 7)) ∧
    ((checkWorkerLiveness 2 10 1 [⟨true, 7⟩, ⟨true, 9⟩]).1.get? 0
      = some (if (true = true) ∧ 2 * 3 < 7
                  ∧ 1 < 10 ∧ (∃ v ∈ [(⟨true, 7⟩ : WorkerW), ⟨true, 9⟩], v.healthy = true ∧ 2 * 4 < v.elapsed)
              then ⟨false, 7⟩ else ⟨true, 7⟩)) ∧
    ((7 : Nat) ≤ 2 * 3 → (checkWorkerLiveness 2 10 1 [⟨true, 7⟩, ⟨true, 9⟩]).1.get? 0 = some ⟨true, 7⟩) :=
  checkWorkerLiveness_spec 2 10 1 [⟨true, 7⟩, ⟨true, 9⟩] 0 ⟨true, 7⟩ rfl

/-- C7: `send_to_healthy` never transmits over a remote channel to an
unhealthy worker; with healthy underlying channels, reaching any remote
shard on an unhealthy worker yields the BrokenPipe "worker failed" error;
and `remove_nodes` swallows exactly that error, panicking on every other
send error. -/
theorem send_to_healthy_skips_failed_workers
    (health : Nat → Bool) (txFail : Nat → Option SendErrM) (shards : List ShardH) :
    (∀ w, SendEvt.remoteSend w ∈ (sendToHealthy health txFail shards).1 →
        health w = true) ∧
    ((∀ w, txFail w = none) →
      ∀ s ∈ shards, s.isLocal = false → health s.worker = false →
        (sendToHealthy health txFail shards).2
          = some (SendErrM.ioError IoKindM.brokenPipe "worker failed")) ∧
    (removeNodesOutcome none = RemoveOutcome.ok ∧
      ∀ e, removeNodesOutcome (some e) = RemoveOutcome.ok
        ↔ e = SendErrM.ioError IoKindM.brokenPipe "worker failed") := by
  refine ⟨?_, ?_, rfl, ?_⟩
  · induction shards with
    | nil => intro w hmem; simp [sendToHealthy] at hmem
    | cons s rest ih =>
      intro w hmem
      unfold sendToHealthy at hmem
      by_cases hl : s.isLocal = true
      · rw [if_pos hl] at hmem
        rcases htx : txFail s.worker with _ | e
        · rw [htx] at hmem
          simp only [List.mem_cons] at hmem
          rcases hmem with hmem | hmem
          · exact SendEvt.noConfusion hmem
          · exact ih w hmem
        · rw [htx] at hmem
          simp only [List.mem_singleton] at hmem
          exact SendEvt.noConfusion hmem
      · rw [if_neg hl] at hmem
        by_cases hh : health s.worker = true
        · rw [if_pos hh] at hmem
          rcases htx : txFail s.worker with _ | e
          · rw [htx] at hmem
            simp only [List.mem_cons] at hmem
            rcases hmem with hmem | hmem
            · cases hmem; exact hh
            · exact ih w hmem
          · rw [htx] at hmem
            simp only [List.mem_singleton] at hmem
            cases hmem; exact hh
        · rw [if_neg hh] at hmem
          simp at hmem
  · intro hok
    induction shards with
    | nil => intro s hs; simp at hs
    | cons s0 rest ih =>
      intro s hs hloc hunh
      unfold sendToHealthy
      rcases List.mem_cons.mp hs with hs | hs
      · subst hs
        rw [if_neg (by rw [hloc]; exact Bool.false_ne_true), if_neg (by rw [hunh]; exact Bool.false_ne_true)]
      · by_cases hl : s0.isLocal = true
        · rw [if_pos hl, hok s0.worker]
          exact ih s hs hloc hunh
        · by_cases hh : health s0.worker = true
          · rw [if_neg hl, if_pos hh, hok s0.worker]
            exact ih s hs hloc hunh
          · rw [if_neg hl, if_neg hh]
  · intro e
    cases e with
    | ioError k d =>
      constructor
      · intro hsw
        simp only [removeNodesOutcome] at hsw
        split_ifs at hsw with hc
        rw [hc.1, hc.2]
      · intro he
        cases he
        simp [removeNodesOutcome]
    | otherErr =>
      constructor
      · intro hsw
        exact RemoveOutcome.noConfusion hsw
      · intro he
        exact SendErrM.noConfusion he

/-- Witness for C7 at a concrete configuration: one local and one remote
healthy shard, then a remote shard on a failed worker. -/
theorem send_to_healthy_skips_failed_workers_spot :
    ((∀ w, SendEvt.remoteSend w ∈ (sendToHealthy (fun w => w == 1) (fun _ => none)
        [⟨true, 0⟩, ⟨false, 1⟩, ⟨false, 2⟩]).1 → (w == 1) = true) ∧
      ((∀ w, (fun (_ : Nat) => (none : Option SendErrM)) w = none) →
        ∀ s ∈ [(⟨true, 0⟩ : ShardH), ⟨false, 1⟩, ⟨false, 2⟩], s.isLocal = false →
          (s.worker == 1) = false →
          (sendToHealthy (fun w => w == 1) (fun _ => none)
            [⟨true, 0⟩, ⟨false, 1⟩, ⟨false, 2⟩]).2
            = some (SendErrM.ioError IoKindM.brokenPipe "worker failed")) ∧
      (removeNodesOutcome none = RemoveOutcome.ok ∧
        ∀ e, removeNodesOutcome (some e) = RemoveOutcome.ok
          ↔ e = SendErrM.ioError IoKindM.brokenPipe "worker failed")) :=
  send_to_healthy_skips_failed_workers (fun w => w == 1) (fun _ => none)
    [⟨true, 0⟩, ⟨false, 1⟩, ⟨false, 2⟩]

end Ctrl

end Distributary

namespace Distributary

namespace Ctrl

/-- `hyper::Method`, restricted to the two methods the dispatcher matches. -/
inductive HMethod where
  | get
  | post
deriving Repr, DecidableEq

/-- Which controller handler (or error status) a request is dispatched to by
`ControllerInner::external_request`. -/
inductive RouteOutcome where
  | graphvizDot
  | graphvizJson
  | statistics
  | serviceUnavailable
  | flushPartialR
  | inputsR
  | outputsR
  | instancesR
  | nodesR
  | tableBuilderR
  | viewBuilderR
  | extendRecipeR
  | installRecipeR
  | setSecurityConfigR
  | createUniverseR
  | removeNodeR
  | notFoundR
deriving Repr, DecidableEq

/-- `ControllerInner::external_request` (src/src/controller/inner.rs:128-226):
`GET /graph`, `POST /graphviz` and `GET /get_statistics` are served before the
availability gate; with a pending recovery or fewer registered workers than
the quorum every other request gets SERVICE_UNAVAILABLE; then the
method/path pair is dispatched, with NOT_FOUND for unrecognized pairs. -/
def externalRequest (pending : Bool) (nworkers quorum : Nat)
    (m : HMethod) (p : String) : RouteOutcome :=
  if m = HMethod.get ∧ p = "/graph" then RouteOutcome.graphvizDot
  else if m = HMethod.post ∧ p = "/graphviz" then RouteOutcome.graphvizJson
  else if m = HMethod.get ∧ p = "/get_statistics" then RouteOutcome.statistics
  else if pending = true ∨ nworkers < quorum then RouteOutcome.serviceUnavailable
  else if m = HMethod.get ∧ p = "/flush_partial" then RouteOutcome.flushPartialR
  else if m = HMethod.post ∧ p = "/inputs" then RouteOutcome.inputsR
  else if m = HMethod.post ∧ p = "/outputs" then RouteOutcome.outputsR
  else if m = HMethod.get ∧ p = "/instances" then RouteOutcome.instancesR
  else if m = HMethod.get ∧ p = "/nodes" then RouteOutcome.nodesR
  else if m = HMethod.post ∧ p = "/table_builder" then RouteOutcome.tableBuilderR
  else if m = HMethod.post ∧ p = "/view_builder" then RouteOutcome.viewBuilderR
  else if m = HMethod.post ∧ p = "/extend_recipe" then RouteOutcome.extendRecipeR
  else if m = HMethod.post ∧ p = "/install_recipe" then RouteOutcome.installRecipeR
  else if m = HMethod.post ∧ p = "/set_security_config" then RouteOutcome.setSecurityConfigR
  else if m = HMethod.post ∧ p = "/create_universe" then RouteOutcome.createUniverseR
  else if m = HMethod.post ∧ p = "/remove_node" then RouteOutcome.removeNodeR
  else RouteOutcome.notFoundR

/-- The method/path pairs `external_request` recognizes. -/
def recognizedPairs : List (HMethod × String) :=
  [(HMethod.get, "/graph"), (HMethod.post, "/graphviz"),
   (HMethod.get, "/get_statistics"), (HMethod.get, "/flush_partial"),
   (HMethod.post, "/inputs"), (HMethod.post, "/outputs"),
   (HMethod.get, "/instances"), (HMethod.get, "/nodes"),
   (HMethod.post, "/table_builder"), (HMethod.post, "/view_builder"),
   (HMethod.post, "/extend_recipe"), (HMethod.post, "/install_recipe"),
   (HMethod.post, "/set_security_config"), (HMethod.post, "/create_universe"),
   (HMethod.post, "/remove_node")]

/-- C8: with no pending recovery and the worker quorum met,
`external_request` routes each spec-listed admin endpoint to its controller
handler and returns NOT_FOUND for every method/path pair outside the
recognized set. -/
theorem externalRequest_routes (pending : Bool) (nworkers quorum : Nat)
    (hp : pending = false) (hq : quorum ≤ nworkers) :
    externalRequest pending nworkers quorum HMethod.get "/graph" = RouteOutcome.graphvizDot ∧
    externalRequest pending nworkers quorum HMethod.get "/get_statistics" = RouteOutcome.statistics ∧
    externalRequest pending nworkers quorum HMethod.get "/instances" = RouteOutcome.instancesR ∧
    externalRequest pending nworkers quorum HMethod.post "/extend_recipe" = RouteOutcome.extendRecipeR ∧
    externalRequest pending nworkers quorum HMethod.post "/install_recipe" = RouteOutcome.installRecipeR ∧
    externalRequest pending nworkers quorum HMethod.post "/table_builder" = RouteOutcome.tableBuilderR ∧
    externalRequest pending nworkers quorum HMethod.post "/view_builder" = RouteOutcome.viewBuilderR ∧
    externalRequest pending nworkers quorum HMethod.post "/remove_node" = RouteOutcome.removeNodeR ∧
    externalRequest pending nworkers quorum HMethod.get "/flush_partial" = RouteOutcome.flushPartialR ∧
    (∀ m pth, (m, pth) ∉ recognizedPairs →
      externalRequest pending nworkers quorum m pth = RouteOutcome.notFoundR) := by
  subst hp
  have hgate : ¬(false = true ∨ nworkers < quorum) := by
    rintro (h | h)
    · exact Bool.false_ne_true h
    · exact absurd h (Nat.not_lt.mpr hq)
  refine ⟨rfl, ?_, ?_, ?_, ?_, ?_, ?_, ?_, ?_, ?_⟩
  · simp [externalRequest, hgate, hq]
  · simp [externalRequest, hgate, hq]
  · simp [externalRequest, hgate, hq]
  · simp [externalRequest, hgate, hq]
  · simp [externalRequest, hgate, hq]
  · simp [externalRequest, hgate, hq]
  · simp [externalRequest, hgate, hq]
  · simp [externalRequest, hgate, hq]
  · intro m pth hnot
    have c1 : ¬(m = HMethod.get ∧ pth = "/graph") :=
      fun h => hnot (by rw [h.1, h.2]; simp [recognizedPairs])
    have c2 : ¬(m = HMethod.post ∧ pth = "/graphviz") :=
      fun h => hnot (by rw [h.1, h.2]; simp [recognizedPairs])
    have c3 : ¬(m = HMethod.get ∧ pth = "/get_statistics") :=
      fun h => hnot (by rw [h.1, h.2]; simp [recognizedPairs])
    have c4 : ¬(m = HMethod.get ∧ pth = "/flush_partial") :=
      fun h => hnot (by rw [h.1, h.2]; simp [recognizedPairs])
    have c5 : ¬(m = HMethod.post ∧ pth = "/inputs") :=
      fun h => hnot (by rw [h.1, h.2]; simp [recognizedPairs])
    have c6 : ¬(m = HMethod.post ∧ pth = "/outputs") :=
      fun h => hnot (by rw [h.1, h.2]; simp [recognizedPairs])
    have c7 : ¬(m = HMethod.get ∧ pth = "/instances") :=
      fun h => hnot (by rw [h.1, h.2]; simp [recognizedPairs])
    have c8 : ¬(m = HMethod.get ∧ pth = "/nodes") :=
      fun h => hnot (by rw [h.1, h.2]; simp [recognizedPairs])
    have c9 : ¬(m = HMethod.post ∧ pth = "/table_builder") :=
      fun h => hnot (by rw [h.1, h.2]; simp [recognizedPairs])
    have c10 : ¬(m = HMethod.post ∧ pth = "/view_builder") :=
      fun h => hnot (by rw [h.1, h.2]; simp [recognizedPairs])
    have c11 : ¬(m = HMethod.post ∧ pth = "/extend_recipe") :=
      fun h => hnot (by rw [h.1, h.2]; simp [recognizedPairs])
    have c12 : ¬(m = HMethod.post ∧ pth = "/install_recipe") :=
      fun h => hnot (by rw [h.1, h.2]; simp [recognizedPairs])
    have c13 : ¬(m = HMethod.post ∧ pth = "/set_security_config") :=
      fun h => hnot (by rw [h.1, h.2]; simp [recognizedPairs])
    have c14 : ¬(m = HMethod.post ∧ pth = "/create_universe") :=
      fun h => hnot (by rw [h.1, h.2]; simp [recognizedPairs])
    have c15 : ¬(m = HMethod.post ∧ pth = "/remove_node") :=
      fun h => hnot (by rw [h.1, h.2]; simp [recognizedPairs])
    simp only [externalRequest]
    rw [if_neg c1, if_neg c2, if_neg c3, if_neg hgate, if_neg c4, if_neg c5,
      if_neg c6, if_neg c7, if_neg c8, if_neg c9, if_neg c10, if_neg c11,
      if_neg c12, if_neg c13, if_neg c14, if_neg c15]

/-- Witness for C8 with one registered worker and quorum one. -/
theorem externalRequest_routes_spot :
    externalRequest false 1 1 HMethod.get "/graph" = RouteOutcome.graphvizDot ∧
    externalRequest false 1 1 HMethod.post "/remove_node" = RouteOutcome.removeNodeR ∧
    externalRequest false 1 1 HMethod.get "/definitely_not_an_endpoint" = RouteOutcome.notFoundR :=
  ⟨(externalRequest_routes false 1 1 rfl (Nat.le_refl 1)).1,
   (externalRequest_routes false 1 1 rfl (Nat.le_refl 1)).2.2.2.2.2.2.2.1,
   (externalRequest_routes false 1 1 rfl (Nat.le_refl 1)).2.2.2.2.2.2.2.2.2
     HMethod.get "/definitely_not_an_endpoint" (by simp [recognizedPairs])⟩

end Ctrl

end Distributary

namespace Distributary

namespace Ctrl

/-- Modelled from the spec: the controller recipe
(src/src/controller/recipe.rs is not among the sources).  "Version numbers
increase monotonically; an extension appends statements; an install
replaces." -/
structure RecipeM where
  version : Nat
  exprs : List String
deriving Repr, DecidableEq

/-- `Recipe::blank(None)`, the placeholder swapped in by `mem::replace`. -/
def blankRecipe : RecipeM :=
  ⟨0, []⟩

/-- Modelled from the spec: `Recipe::extend` consumes the recipe and either
appends the new statements and bumps the version, or fails, handing the
unchanged old recipe back in the error ("the old recipe is restored").
`parses` abstracts the recipe parser. -/
def extendR (parses : String → Bool) (r : RecipeM) (txt : String) :
    Except (RecipeM × String) RecipeM :=
  if parses txt then Except.ok ⟨r.version + 1, r.exprs ++ [txt]⟩
  else Except.error (r, "recipe text did not parse")

/-- Modelled from the spec: `Recipe::from_str` parses recipe text into a
fresh recipe. -/
def recipeFromStr (parses : String → Bool) (txt : String) : Except String RecipeM :=
  if parses txt then Except.ok ⟨0, [txt]⟩
  else Except.error "failed to parse recipe"

/-- Modelled from the spec: `Recipe::replace` installs the new recipe
contents in place of the old ("an install replaces"), carrying the version
counter forward. -/
def replaceR (old : RecipeM) (r : RecipeM) : RecipeM :=
  ⟨old.version, r.exprs⟩

/-- The controller fields the recipe entry points read or write: the current
recipe and the dataflow graph (`ingredients`), the latter left an arbitrary
type so that frame statements quantify over every possible graph state. -/
structure CtrlState (G : Type) where
  recipe : RecipeM
  graph : G
deriving Repr, DecidableEq

/-- The persisted `ControllerState` kept by the `Authority` (its declaration
lives in src/src/controller/mod.rs, not among the sources; the fields are
exactly those read and written in `extend_recipe`/`install_recipe`). -/
structure ControllerStateM where
  epoch : Nat
  recipe_version : Nat
  recipes : List String
deriving Repr, DecidableEq

/-- `ControllerInner::extend_recipe` (src/src/controller/inner.rs:830-863).
The current recipe is `mem::replace`d by a blank one and extended; on
success `apply_recipe` runs (abstracted as `applyRecipeFn`, which may mutate
recipe and graph arbitrarily) and the outcome is persisted through the
authority read-modify-write: stale-epoch persisted state fails the
persistence, otherwise `recipe_version` is set to the controller's current
recipe version and `add_txt` is appended to the persisted recipe list.  On
extension failure the old recipe is restored and an error returned. -/
def extendRecipe {G : Type} (parses : String → Bool)
    (applyRecipeFn : CtrlState G → RecipeM → Except String Unit × CtrlState G)
    (selfEpoch : Nat) (c : CtrlState G) (auth : Option ControllerStateM)
    (addTxt : String) :
    Except String Unit × CtrlState G × Option ControllerStateM :=
  match extendR parses c.recipe addTxt with
  | Except.ok newR =>
    let ar := applyRecipeFn { c with recipe := blankRecipe } newR
    match auth with
    | none => (Except.error "unreachable: no persisted state", ar.2, none)
    | some st =>
      if selfEpoch < st.epoch then
        (Except.error "Failed to persist recipe extension", ar.2, some st)
      else
        (ar.1, ar.2,
          some { st with
            recipe_version := ar.2.recipe.version
            recipes := st.recipes ++ [addTxt] })
  | Except.error (old, _) =>
    (Except.error "failed to extend recipe", { c with recipe := old }, auth)

/-- `ControllerInner::install_recipe` (src/src/controller/inner.rs:865-895).
The text is parsed first; on success the old recipe is replaced, the result
applied, and the persisted recipe list overwritten with the single installed
text; a parse failure returns an error before any state is touched. -/
def installRecipe {G : Type} (parses : String → Bool)
    (applyRecipeFn : CtrlState G → RecipeM → Except String Unit × CtrlState G)
    (selfEpoch : Nat) (c : CtrlState G) (auth : Option ControllerStateM)
    (rTxt : String) :
    Except String Unit × CtrlState G × Option ControllerStateM :=
  match recipeFromStr parses rTxt with
  | Except.ok r =>
    let newR := replaceR c.recipe r
    let ar := applyRecipeFn { c with recipe := blankRecipe } newR
    match auth with
    | none => (Except.error "unreachable: no persisted state", ar.2, none)
    | some st =>
      if selfEpoch < st.epoch then
        (Except.error "Failed to persist recipe installation", ar.2, some st)
      else
        (ar.1, ar.2,
          some { st with
            recipe_version := ar.2.recipe.version
            recipes := [rTxt] })
  | Except.error _ => (Except.error "failed to parse recipe", c, auth)

/-- C3: recipe text that fails to parse (install) or to extend with (extend)
makes the call return an error and leaves the controller recipe, the
dataflow graph and the persisted state exactly as they were. -/
theorem recipe_errors_leave_state_unchanged {G : Type} (parses : String → Bool)
    (applyRecipeFn : CtrlState G → RecipeM → Except String Unit × CtrlState G)
    (selfEpoch : Nat) (c : CtrlState G) (auth : Option ControllerStateM)
    (t1 t2 : String) (h1 : parses t1 = false) (h2 : parses t2 = false) :
    (∃ e, extendRecipe parses applyRecipeFn selfEpoch c auth t1
        = (Except.error e, c, auth)) ∧
    (∃ e, installRecipe parses applyRecipeFn selfEpoch c auth t2
        = (Except.error e, c, auth)) := by
  constructor
  · refine ⟨"failed to extend recipe", ?_⟩
    unfold extendRecipe extendR
    rw [if_neg (by rw [h1]; exact Bool.false_ne_true)]
  · refine ⟨"failed to parse recipe", ?_⟩
    unfold installRecipe recipeFromStr
    rw [if_neg (by rw [h2]; exact Bool.false_ne_true)]

/-- Witness for C3 over a concrete controller state with a parser that
rejects empty text. -/
theorem recipe_errors_leave_state_unchanged_spot :
    (∃ e, extendRecipe (fun s => !s.isEmpty)
        (fun c _ => (Except.ok (), c)) 0
        (⟨⟨3, ["q1"]⟩, (17 : Nat)⟩ : CtrlState Nat)
        (some ⟨0, 3, ["q1"]⟩) ""
        = (Except.error e, ⟨⟨3, ["q1"]⟩, 17⟩, some ⟨0, 3, ["q1"]⟩)) ∧
    (∃ e, installRecipe (fun s => !s.isEmpty)
        (fun c _ => (Except.ok (), c)) 0
        (⟨⟨3, ["q1"]⟩, (17 : Nat)⟩ : CtrlState Nat)
        (some ⟨0, 3, ["q1"]⟩) ""
        = (Except.error e, ⟨⟨3, ["q1"]⟩, 17⟩, some ⟨0, 3, ["q1"]⟩)) :=
  recipe_errors_leave_state_unchanged (fun s => !s.isEmpty)
    (fun c _ => (Except.ok (), c)) 0 ⟨⟨3, ["q1"]⟩, 17⟩ (some ⟨0, 3, ["q1"]⟩)
    "" "" rfl rfl

/-- C6: with a live persisted state (epoch not ahead of the controller), a
successfully extending `extend_recipe` persists `recipe_version` equal to
the controller's current recipe version and appends the added text to the
persisted recipe list, and `install_recipe` persists exactly the
one-element recipe list containing the installed text. -/
theorem recipe_persistence_spec {G : Type} (parses : String → Bool)
    (applyRecipeFn : CtrlState G → RecipeM → Except String Unit × CtrlState G)
    (selfEpoch : Nat) (c : CtrlState G) (st : ControllerStateM)
    (t1 t2 : String) (h1 : parses t1 = true) (h2 : parses t2 = true)
    (hep : st.epoch ≤ selfEpoch) :
    (∃ r c2, extendRecipe parses applyRecipeFn selfEpoch c (some st) t1
        = (r, c2, some { st with
            recipe_version := c2.recipe.version
            recipes := st.recipes ++ [t1] })) ∧
    (∃ r c2, installRecipe parses applyRecipeFn selfEpoch c (some st) t2
        = (r, c2, some { st with
            recipe_version := c2.recipe.version
            recipes := [t2] })) := by
  constructor
  · refine ⟨(applyRecipeFn { c with recipe := blankRecipe }
        ⟨c.recipe.version + 1, c.recipe.exprs ++ [t1]⟩).1,
      (applyRecipeFn { c with recipe := blankRecipe }
        ⟨c.recipe.version + 1, c.recipe.exprs ++ [t1]⟩).2, ?_⟩
    unfold extendRecipe extendR
    rw [if_pos h1]
    simp only
    rw [if_neg (Nat.not_lt.mpr hep)]
  · refine ⟨(applyRecipeFn { c with recipe := blankRecipe }
        (replaceR c.recipe ⟨0, [t2]⟩)).1,
      (applyRecipeFn { c with recipe := blankRecipe }
        (replaceR c.recipe ⟨0, [t2]⟩)).2, ?_⟩
    unfold installRecipe recipeFromStr
    rw [if_pos h2]
    simp only
    rw [if_neg (Nat.not_lt.mpr hep)]

/-- Witness for C6 at a concrete state: extend appends "q2", install leaves
only "q3". -/
theorem recipe_persistence_spec_spot :
    (∃ r c2, extendRecipe (fun s => !s.isEmpty)
        (fun c _ => (Except.ok (), c)) 5
        (⟨⟨3, ["q1"]⟩, (17 : Nat)⟩ : CtrlState Nat)
        (some ⟨4, 3, ["q1"]⟩) "q2"
        = (r, c2, some ⟨4, c2.recipe.version, ["q1", "q2"]⟩)) ∧
    (∃ r c2, installRecipe (fun s => !s.isEmpty)
        (fun c _ => (Except.ok (), c)) 5
        (⟨⟨3, ["q1"]⟩, (17 : Nat)⟩ : CtrlState Nat)
        (some ⟨4, 3, ["q1"]⟩) "q3"
        = (r, c2, some ⟨4, c2.recipe.version, ["q3"]⟩)) :=
  recipe_persistence_spec (fun s => !s.isEmpty)
    (fun c _ => (Except.ok (), c)) 5 ⟨⟨3, ["q1"]⟩, 17⟩ ⟨4, 3, ["q1"]⟩
    "q2" "q3" rfl rfl (by norm_num)

end Ctrl

end Distributary

namespace Distributary

namespace Ctrl

/-- Node kinds of the controller graph (`self.ingredients`) that the removal
path distinguishes: the unique source, base nodes, reader nodes, everything
else. -/
inductive CNodeKind where
  | source
  | base
  | reader
  | internal
deriving Repr, DecidableEq

/-- A controller graph node: its kind and the dropped mark set by
`node.remove()`. -/
structure CNode where
  kind : CNodeKind
  removed : Bool
deriving Repr, DecidableEq

/-- The controller dataflow graph `self.ingredients`: a petgraph with nodes
indexed by position and directed edges. -/
structure CGraph where
  nodes : List CNode
  edges : List (Nat × Nat)
deriving Repr, DecidableEq

def kindOf (g : CGraph) (n : Nat) : Option CNodeKind :=
  (g.nodes.get? n).map (fun nd => nd.kind)

def isBaseN (g : CGraph) (n : Nat) : Bool :=
  kindOf g n == some CNodeKind.base

def isSourceN (g : CGraph) (n : Nat) : Bool :=
  kindOf g n == some CNodeKind.source

def isReaderN (g : CGraph) (n : Nat) : Bool :=
  kindOf g n == some CNodeKind.reader

/-- Outgoing neighbors of `n`, one entry per edge. -/
def outNbrs (g : CGraph) (n : Nat) : List Nat :=
  g.edges.filterMap (fun e => if e.1 = n then some e.2 else none)

/-- Incoming neighbors of `n`, one entry per edge. -/
def inNbrs (g : CGraph) (n : Nat) : List Nat :=
  g.edges.filterMap (fun e => if e.2 = n then some e.1 else none)

/-- Mark one node dropped, as `self.ingredients[*ni].remove()` does
(src/src/controller/inner.rs:997); edges are untouched. -/
def markOne (g : CGraph) (n : Nat) : CGraph :=
  match g.nodes.get? n with
  | some nd => { g with nodes := g.nodes.set n ⟨nd.kind, true⟩ }
  | none => g

/-- The graph effect of `ControllerInner::remove_nodes`
(src/src/controller/inner.rs:993-1003): mark every listed node dropped.  The
domain notification and its error handling are modelled by `sendToHealthy`
and `removeNodesOutcome`. -/
def removeNodesMark (g : CGraph) (removals : List Nat) : CGraph :=
  removals.foldl markOne g

/-- The parent-edge loop inside `remove_leaf`
(src/src/controller/inner.rs:966-985): repeatedly detach one incoming edge
of `node`; after each edge removal the parent is pushed onto the worklist if
it is neither the source nor a base, is the original start or not a query
leaf address, and now has no outgoing edges.  Fuel bounds the loop (each
iteration erases one edge). -/
def stripParents (leafAddr : Nat → Bool) (start : Nat) :
    Nat → CGraph → Nat → CGraph × List Nat
  | 0, g, _ => (g, [])
  | fuel + 1, g, node =>
    match inNbrs g node with
    | [] => (g, [])
    | p :: _ =>
      let g2 : CGraph := { g with edges := g.edges.erase (p, node) }
      let push := !(isSourceN g2 p) && !(isBaseN g2 p)
        && (decide (p = start) || !(leafAddr p))
        && decide ((outNbrs g2 p).length = 0)
      let r := stripParents leafAddr start fuel g2 node
      if push then (r.1, p :: r.2) else r

/-- The worklist loop of `remove_leaf` (src/src/controller/inner.rs:964-988):
pop a node, strip its incoming edges (possibly enqueueing newly orphaned
parents), and record it in the removal list. -/
def cascade (leafAddr : Nat → Bool) (start : Nat) :
    Nat → CGraph → List Nat → List Nat → Except String (CGraph × List Nat)
  | _, g, [], removals => Except.ok (g, removals)
  | 0, _, _ :: _, _ => Except.error "fuel exhausted in removal cascade"
  | fuel + 1, g, node :: rest, removals =>
    let r := stripParents leafAddr start g.edges.length g node
    cascade leafAddr start fuel r.1 (r.2.reverse ++ rest) (removals ++ [node])

/-- `ControllerInner::remove_leaf` (src/src/controller/inner.rs:901-991).
If the start node still has children they must all be readers (else the
`unreachable!` fires), at most one; the reader becomes the leaf and is
recorded for removal.  The leaf must then be childless; the cascade strips
edges and collects removals, which are finally marked dropped by
`remove_nodes`. -/
def removeLeaf (leafAddr : Nat → Bool) (g : CGraph) (start : Nat) :
    Except String (CGraph × List Nat) :=
  if isSourceN g start then Except.error "assert: cannot remove the source"
  else
    match
      (if (outNbrs g start).isEmpty then
        Except.ok (start, ([] : List Nat))
      else if (outNbrs g start).any (fun c => !(isReaderN g c)) then
        Except.error "unreachable: node still has non-reader children"
      else if 1 < ((outNbrs g start).filter (fun c => isReaderN g c)).length then
        Except.error "assert: more than one reader attached"
      else
        match (outNbrs g start).filter (fun c => isReaderN g c) with
        | r :: _ => Except.ok (r, [r])
        | [] => Except.error "unreachable: no reader among children")
    with
    | Except.error e => Except.error e
    | Except.ok (leaf, removals0) =>
      if (outNbrs g leaf).length ≠ 0 then
        Except.error "assert: leaf still has children"
      else
        match cascade leafAddr start (g.edges.length + 1) g [leaf] removals0 with
        | Except.error e => Except.error e
        | Except.ok (g2, removals) =>
          Except.ok (removeNodesMark g2 removals, removals)

/-- One removal performed by `apply_recipe`: a query-leaf removal via
`remove_leaf`, or a base removal via `remove_nodes`, recording the number of
outgoing children the base had at that moment. -/
inductive RemovalEvent where
  | leafRemoval (n : Nat)
  | baseRemoval (n : Nat) (outDegree : Nat)
deriving Repr, DecidableEq

/-- A node is ready to be emitted by the topological visit: not yet emitted,
and every incoming edge originates from an emitted node. -/
def readyPred (g : CGraph) (acc : List Nat) (n : Nat) : Bool :=
  decide (n ∉ acc) && g.edges.all (fun e => decide (e.2 ≠ n) || decide (e.1 ∈ acc))

def readyNode (g : CGraph) (acc : List Nat) : Option Nat :=
  (List.range g.nodes.length).find? (readyPred g acc)

def topoAux (g : CGraph) : Nat → List Nat → List Nat
  | 0, acc => acc
  | fuel + 1, acc =>
    match readyNode g acc with
    | some n => topoAux g fuel (acc ++ [n])
    | none => acc

/-- `petgraph::visit::Topo` over the controller graph: emit nodes in an
order where every node follows all its parents. -/
def topoSort (g : CGraph) : List Nat :=
  topoAux g g.nodes.length []

/-- The query-leaf removal loop of `apply_recipe`
(src/src/controller/inner.rs:793-795). -/
def removeLeaves (leafAddr : Nat → Bool) :
    CGraph → List Nat → Except String (List RemovalEvent × CGraph)
  | g, [] => Except.ok ([], g)
  | g, l :: rest =>
    match removeLeaf leafAddr g l with
    | Except.error e => Except.error e
    | Except.ok (g2, _) =>
      match removeLeaves leafAddr g2 rest with
      | Except.error e => Except.error e
      | Except.ok (evs, g3) => Except.ok (RemovalEvent.leafRemoval l :: evs, g3)

/-- The base removal loop of `apply_recipe`
(src/src/controller/inner.rs:797-815): each base's current children are
collected and asserted empty, then the orphaned base is dropped via
`remove_nodes`. -/
def removeBases : CGraph → List Nat → Except String (List RemovalEvent × CGraph)
  | g, [] => Except.ok ([], g)
  | g, b :: rest =>
    if (outNbrs g b).length ≠ 0 then
      Except.error "assert: base still has children"
    else
      match removeBases (removeNodesMark g [b]) rest with
      | Except.error e => Except.error e
      | Except.ok (evs, g2) =>
        Except.ok (RemovalEvent.baseRemoval b (outNbrs g b).length :: evs, g2)

/-- The success branch of `ControllerInner::apply_recipe`
(src/src/controller/inner.rs:775-817): partition the removed leaves reported
by activation into bases and the rest, remove the rest in reverse
topological order of the current graph, then remove the (now childless)
bases. -/
def applyRecipeRemovals (leafAddr : Nat → Bool) (g : CGraph)
    (removedLeaves : List Nat) : Except String (List RemovalEvent × CGraph) :=
  let removedOther := removedLeaves.filter (fun n => !(isBaseN g n))
  let removedBases := removedLeaves.filter (fun n => isBaseN g n)
  let topoRemovals := ((topoSort g).filter (fun n => n ∈ removedOther)).reverse
  match removeLeaves leafAddr g topoRemovals with
  | Except.error e => Except.error e
  | Except.ok (evs1, g2) =>
    match removeBases g2 removedBases with
    | Except.error e => Except.error e
    | Except.ok (evs2, g3) => Except.ok (evs1 ++ evs2, g3)

end Ctrl

end Distributary

namespace Distributary

namespace Ctrl

/-- Invariant of the topological visit: emitted nodes are distinct, in
range, closed under incoming edges, and no edge runs from a later to an
earlier emitted node. -/
def TopoInv (g : CGraph) (acc : List Nat) : Prop :=
  acc.Nodup ∧ (∀ x ∈ acc, x < g.nodes.length) ∧
    (∀ v ∈ acc, ∀ e ∈ g.edges, e.2 = v → e.1 ∈ acc) ∧
    List.Pairwise (fun a b => (b, a) ∉ g.edges) acc

theorem readyNode_mem_lt (g : CGraph) (acc : List Nat) (n : Nat)
    (h : readyNode g acc = some n) : n < g.nodes.length :=
  List.mem_range.mp (List.mem_of_find?_eq_some h)

theorem readyNode_props (g : CGraph) (acc : List Nat) (n : Nat)
    (h : readyNode g acc = some n) :
    n ∉ acc ∧ ∀ e ∈ g.edges, e.2 = n → e.1 ∈ acc := by
  have hp := List.find?_some h
  unfold readyPred at hp
  rw [Bool.and_eq_true, decide_eq_true_eq] at hp
  refine ⟨hp.1, ?_⟩
  intro e he hev
  have h2 := (List.all_eq_true.mp hp.2) e he
  rw [Bool.or_eq_true, decide_eq_true_eq, decide_eq_true_eq] at h2
  rcases h2 with h2 | h2
  · exact absurd hev h2
  · exact h2

theorem topoInv_step (g : CGraph) (acc : List Nat) (n : Nat)
    (hinv : TopoInv g acc) (h : readyNode g acc = some n) :
    TopoInv g (acc ++ [n]) := by
  obtain ⟨hnd, hlt, hcl, hpw⟩ := hinv
  obtain ⟨hnm, hin⟩ := readyNode_props g acc n h
  refine ⟨?_, ?_, ?_, ?_⟩
  · simp [List.nodup_append, hnd, hnm]
  · intro x hx
    rcases List.mem_append.mp hx with hx | hx
    · exact hlt x hx
    · rw [List.mem_singleton.mp hx]
      exact readyNode_mem_lt g acc n h
  · intro v hv e he hev
    rcases List.mem_append.mp hv with hv | hv
    · exact List.mem_append_left _ (hcl v hv e he hev)
    · rw [List.mem_singleton.mp hv] at hev
      exact List.mem_append_left _ (hin e he hev)
  · rw [List.pairwise_append]
    refine ⟨hpw, List.pairwise_singleton _ _, ?_⟩
    intro a ha b hb
    rw [List.mem_singleton.mp hb]
    intro hedge2
    exact hnm (hcl a ha (n, a) hedge2 rfl)

theorem topoAux_inv (g : CGraph) :
    ∀ (fuel : Nat) (acc : List Nat), TopoInv g acc → TopoInv g (topoAux g fuel acc)
  | 0, acc, h => h
  | fuel + 1, acc, h => by
    unfold topoAux
    cases hr : readyNode g acc with
    | some n => exact topoAux_inv g fuel (acc ++ [n]) (topoInv_step g acc n h hr)
    | none => exact h

theorem topoInv_nil (g : CGraph) : TopoInv g [] :=
  ⟨List.nodup_nil, by simp, by simp, List.Pairwise.nil⟩

theorem topoSort_pairwise (g : CGraph) :
    List.Pairwise (fun a b => (b, a) ∉ g.edges) (topoSort g) :=
  (topoAux_inv g g.nodes.length [] (topoInv_nil g)).2.2.2

theorem full_of_length (len : Nat) (acc : List Nat) (hnd : acc.Nodup)
    (hlt : ∀ x ∈ acc, x < len) (hlen : len ≤ acc.length) :
    ∀ x, x < len → x ∈ acc := by
  intro x hx
  have hsub : acc.toFinset ⊆ Finset.range len := by
    intro y hy
    rw [Finset.mem_range]
    exact hlt y (List.mem_toFinset.mp hy)
  have hcard : (Finset.range len).card ≤ acc.toFinset.card := by
    rw [Finset.card_range, List.toFinset_card_of_nodup hnd]
    exact hlen
  have heq := Finset.eq_of_subset_of_card_le hsub hcard
  have hxm : x ∈ acc.toFinset := by
    rw [heq]
    exact Finset.mem_range.mpr hx
  exact List.mem_toFinset.mp hxm

theorem exists_ready (g : CGraph) (ht : Nat → Nat)
    (hrank : ∀ e ∈ g.edges, ht e.1 < ht e.2)
    (hedge : ∀ e ∈ g.edges, e.1 < g.nodes.length) (acc : List Nat) :
    ∀ k n, ht n < k → n < g.nodes.length → n ∉ acc →
      ∃ m, m < g.nodes.length ∧ readyPred g acc m = true := by
  intro k
  induction k with
  | zero => intro n h; omega
  | succ k ih =>
    intro n _ hn hnm
    by_cases hready : ∀ e ∈ g.edges, e.2 = n → e.1 ∈ acc
    · refine ⟨n, hn, ?_⟩
      unfold readyPred
      rw [Bool.and_eq_true, decide_eq_true_eq, List.all_eq_true]
      refine ⟨hnm, ?_⟩
      intro e he
      rw [Bool.or_eq_true, decide_eq_true_eq, decide_eq_true_eq]
      by_cases hev : e.2 = n
      · exact Or.inr (hready e he hev)
      · exact Or.inl hev
    · push_neg at hready
      obtain ⟨e, he, hev, hem⟩ := hready
      have h1 : ht e.1 < ht n := hev ▸ hrank e he
      exact ih e.1 (by omega) (hedge e he) hem

theorem topoAux_complete (g : CGraph) (ht : Nat → Nat)
    (hrank : ∀ e ∈ g.edges, ht e.1 < ht e.2)
    (hedge : ∀ e ∈ g.edges, e.1 < g.nodes.length) :
    ∀ (fuel : Nat) (acc : List Nat), acc.Nodup →
      (∀ x ∈ acc, x < g.nodes.length) →
      g.nodes.length - acc.length ≤ fuel →
      ∀ x, x < g.nodes.length → x ∈ topoAux g fuel acc := by
  intro fuel
  induction fuel with
  | zero =>
    intro acc hnd hlt hf x hx
    exact full_of_length g.nodes.length acc hnd hlt (by omega) x hx
  | succ fuel ih =>
    intro acc hnd hlt hf x hx
    unfold topoAux
    cases hr : readyNode g acc with
    | some n =>
      obtain ⟨hnm, -⟩ := readyNode_props g acc n hr
      have hnlt := readyNode_mem_lt g acc n hr
      apply ih (acc ++ [n])
      · simp [List.nodup_append, hnd, hnm]
      · intro y hy
        rcases List.mem_append.mp hy with hy | hy
        · exact hlt y hy
        · rw [List.mem_singleton.mp hy]
          exact hnlt
      · simp only [List.length_append, List.length_singleton]
        omega
      · exact hx
    | none =>
      by_cases hxm : x ∈ acc
      · exact hxm
      · exfalso
        obtain ⟨m, hm, hp⟩ :=
          exists_ready g ht hrank hedge acc (ht x + 1) x (Nat.lt_succ_self _) hx hxm
        unfold readyNode at hr
        have hnone := List.find?_eq_none.mp hr m (List.mem_range.mpr hm)
        rw [hp] at hnone
        exact hnone rfl

theorem topoSort_complete (g : CGraph) (ht : Nat → Nat)
    (hrank : ∀ e ∈ g.edges, ht e.1 < ht e.2)
    (hedge : ∀ e ∈ g.edges, e.1 < g.nodes.length) :
    ∀ x, x < g.nodes.length → x ∈ topoSort g :=
  topoAux_complete g ht hrank hedge g.nodes.length [] List.nodup_nil
    (by simp) (by simp)

theorem removeLeaves_events (leafAddr : Nat → Bool) :
    ∀ (ls : List Nat) (g : CGraph) (evs : List RemovalEvent) (g2 : CGraph),
      removeLeaves leafAddr g ls = Except.ok (evs, g2) →
      evs = ls.map RemovalEvent.leafRemoval
  | [], g, evs, g2, h => by
    simp only [removeLeaves, Except.ok.injEq, Prod.mk.injEq] at h
    rw [← h.1]
    rfl
  | l :: rest, g, evs, g2, h => by
    simp only [removeLeaves] at h
    split at h
    · exact absurd h (by simp)
    · rename_i g3 rem3 hrl
      split at h
      · exact absurd h (by simp)
      · rename_i evs4 g4 hrec
        simp only [Except.ok.injEq, Prod.mk.injEq] at h
        rw [← h.1, removeLeaves_events leafAddr rest g3 evs4 g4 hrec]
        rfl

theorem removeBases_events :
    ∀ (bs : List Nat) (g : CGraph) (evs : List RemovalEvent) (g2 : CGraph),
      removeBases g bs = Except.ok (evs, g2) →
      evs = bs.map (fun b => RemovalEvent.baseRemoval b 0)
  | [], g, evs, g2, h => by
    simp only [removeBases, Except.ok.injEq, Prod.mk.injEq] at h
    rw [← h.1]
    rfl
  | b :: rest, g, evs, g2, h => by
    simp only [removeBases] at h
    split at h
    · exact absurd h (by simp)
    · rename_i hdeg
      split at h
      · exact absurd h (by simp)
      · rename_i evs4 g4 hrec
        simp only [Except.ok.injEq, Prod.mk.injEq] at h
        rw [← h.1, removeBases_events rest (removeNodesMark g [b]) evs4 g4 hrec,
          not_ne_iff.mp hdeg]
        rfl

end Ctrl

end Distributary

namespace Distributary

namespace Ctrl

/-- C4: when the removal phase of a succeeding `apply_recipe` runs, the
recorded removal sequence is exactly the removed non-base leaves in reverse
topological order of the current graph followed by the removed bases, and
every removed base has zero outgoing children at the moment it is removed. -/
theorem applyRecipeRemovals_spec (leafAddr : Nat → Bool) (g : CGraph)
    (removedLeaves : List Nat) (ht : Nat → Nat)
    (hrank : ∀ e ∈ g.edges, ht e.1 < ht e.2)
    (hedge : ∀ e ∈ g.edges, e.1 < g.nodes.length)
    (hmem : ∀ n ∈ removedLeaves, n < g.nodes.length)
    (evs : List RemovalEvent) (gfin : CGraph)
    (hok : applyRecipeRemovals leafAddr g removedLeaves = Except.ok (evs, gfin)) :
    (∃ topoRemovals : List Nat,
      evs = topoRemovals.map RemovalEvent.leafRemoval
          ++ (removedLeaves.filter (fun n => isBaseN g n)).map
              (fun b => RemovalEvent.baseRemoval b 0) ∧
      (∀ n ∈ removedLeaves, isBaseN g n = false → n ∈ topoRemovals) ∧
      (∀ n ∈ topoRemovals, n ∈ removedLeaves ∧ isBaseN g n = false) ∧
      List.Pairwise (fun a b => (a, b) ∉ g.edges) topoRemovals) ∧
    (∀ b d, RemovalEvent.baseRemoval b d ∈ evs → d = 0) := by
  simp only [applyRecipeRemovals] at hok
  split at hok
  · exact absurd hok (by simp)
  · rename_i evs1 g2 hLeq
    split at hok
    · exact absurd hok (by simp)
    · rename_i evs2 g3 hBeq
      simp only [Except.ok.injEq, Prod.mk.injEq] at hok
      obtain ⟨hevs, -⟩ := hok
      have h1 := removeLeaves_events leafAddr _ g evs1 g2 hLeq
      have h2 := removeBases_events _ g2 evs2 g3 hBeq
      refine ⟨⟨_, by rw [← hevs, h1, h2], ?_, ?_, ?_⟩, ?_⟩
      · intro n hn hb
        rw [List.mem_reverse, List.mem_filter]
        refine ⟨topoSort_complete g ht hrank hedge n (hmem n hn), ?_⟩
        rw [decide_eq_true_eq, List.mem_filter]
        refine ⟨hn, ?_⟩
        rw [hb]
        rfl
      · intro n hn
        rw [List.mem_reverse, List.mem_filter, decide_eq_true_eq,
          List.mem_filter] at hn
        refine ⟨hn.2.1, ?_⟩
        simpa using hn.2.2
      · rw [List.pairwise_reverse]
        exact List.Pairwise.filter _ (topoSort_pairwise g)
      · intro b d hbd
        rw [← hevs, h1, h2] at hbd
        rcases List.mem_append.mp hbd with hbd | hbd
        · obtain ⟨x, -, hx⟩ := List.mem_map.mp hbd
          exact RemovalEvent.noConfusion hx
        · obtain ⟨x, -, hx⟩ := List.mem_map.mp hbd
          cases hx
          rfl

/-- A concrete controller graph: source 0 → base 1 → query node 2 →
reader 3. -/
def c4g : CGraph :=
  ⟨[⟨CNodeKind.source, false⟩, ⟨CNodeKind.base, false⟩,
    ⟨CNodeKind.internal, false⟩, ⟨CNodeKind.reader, false⟩],
   [(0, 1), (1, 2), (2, 3)]⟩

/-- Witness for C4: removing query node 2 and base 1 from `c4g` removes the
query leaf (and its reader) first, in reverse topological order, and the
base last. -/
theorem applyRecipeRemovals_spec_spot :
    ∃ topoRemovals : List Nat,
      [RemovalEvent.leafRemoval 2, RemovalEvent.baseRemoval 1 0]
        = topoRemovals.map RemovalEvent.leafRemoval
          ++ ([2, 1].filter (fun n => isBaseN c4g n)).map
              (fun b => RemovalEvent.baseRemoval b 0) ∧
      (∀ n ∈ [2, 1], isBaseN c4g n = false → n ∈ topoRemovals) ∧
      (∀ n ∈ topoRemovals, n ∈ [2, 1] ∧ isBaseN c4g n = false) ∧
      List.Pairwise (fun a b => (a, b) ∉ c4g.edges) topoRemovals :=
  (applyRecipeRemovals_spec (fun _ => false) c4g [2, 1] id
    (by decide) (by decide) (by decide)
    [RemovalEvent.leafRemoval 2, RemovalEvent.baseRemoval 1 0]
    ⟨[⟨CNodeKind.source, false⟩, ⟨CNodeKind.base, true⟩,
      ⟨CNodeKind.internal, true⟩, ⟨CNodeKind.reader, true⟩],
     [(0, 1)]⟩ rfl).1

end Ctrl

end Distributary

namespace Distributary

namespace Mir

/-- `nom_sql::Column` as used by the MIR rewrite pass: a name, an optional
table qualifier, and an optional aggregate function. -/
structure Column where
  name : String
  table : Option String
  function : Option String
deriving Repr, DecidableEq

/-- The inner column-pull loop of `pull_required_base_columns`
(src/src/mir/rewrite.rs:23-28): walk the popped node's column snapshot and
append to the ancestor each table-qualified, non-function column the
ancestor does not already contain. -/
def pullCols (snap : List Column) (dest : List Column) : List Column :=
  snap.foldl
    (fun acc c =>
      if c.table.isSome && c.function.isNone && !(decide (c ∈ acc)) then acc ++ [c]
      else acc)
    dest

/-- Update the column assignment of one MIR node. -/
def updateCols (st : Nat → List Column) (a : Nat) (v : List Column) :
    Nat → List Column :=
  fun x => if x = a then v else st x

/-- The ancestor loop of one `pull_required_base_columns` iteration
(src/src/mir/rewrite.rs:18-30): base ancestors (no ancestors of their own)
are skipped; every other ancestor receives the pulled columns and is pushed
onto the worklist.  Returns the new column assignment and the pushed
ancestors in iteration order. -/
def processAnc (anc : Nat → List Nat) (snap : List Column) :
    (Nat → List Column) → List Nat → (Nat → List Column) × List Nat
  | st, [] => (st, [])
  | st, a :: rest =>
    if (anc a).isEmpty then processAnc anc snap st rest
    else
      let st2 := updateCols st a (pullCols snap (st a))
      let r := processAnc anc snap st2 rest
      (r.1, a :: r.2)

/-- The worklist loop of `pull_required_base_columns`
(src/src/mir/rewrite.rs:8-31).  The queue is a stack (`Vec` push/pop); a
popped node's column snapshot is pulled into each non-base ancestor, and
those ancestors are re-enqueued.  `popped` records processed nodes.  Fuel
bounds the loop; `none` means fuel ran out. -/
def runPull (anc : Nat → List Nat) :
    Nat → (Nat → List Column) → List Nat → List Nat →
      Option ((Nat → List Column) × List Nat)
  | _, st, [], popped => some (st, popped)
  | 0, _, _ :: _, _ => none
  | fuel + 1, st, d :: rest, popped =>
    let r := processAnc anc (st d) st (anc d)
    runPull anc fuel r.1 (r.2.reverse ++ rest) (popped ++ [d])

/-- `pull_required_base_columns(q)` (src/src/mir/rewrite.rs:4-32): the
worklist starts with the query leaf. -/
def pullRequiredBaseColumns (anc : Nat → List Nat) (leaf : Nat)
    (st : Nat → List Column) (fuel : Nat) :
    Option ((Nat → List Column) × List Nat) :=
  runPull anc fuel st [leaf] []

/-- An iterated-ancestor chain through non-base nodes: every intermediate
node (and the endpoint) has ancestors of its own, so each link is one the
worklist traverses. -/
inductive UpChain (anc : Nat → List Nat) : Nat → Nat → Prop where
  | single {d a : Nat} : a ∈ anc d → anc a ≠ [] → UpChain anc d a
  | cons {d a b : Nat} : a ∈ anc d → anc a ≠ [] → UpChain anc a b → UpChain anc d b

/-- Worklist termination measure: ancestors have strictly smaller rank, so
replacing a popped node by at most `A` ancestors shrinks this sum. -/
def queueMeasure (ht : Nat → Nat) (A : Nat) (queue : List Nat) : Nat :=
  (queue.map (fun n => (A + 1) ^ ht n)).sum

end Mir

end Distributary

namespace Distributary

namespace Mir

theorem pullCols_step (s : Column) (ss : List Column) (dest : List Column) :
    pullCols (s :: ss) dest
      = pullCols ss
          (if s.table.isSome && s.function.isNone && !(decide (s ∈ dest))
            then dest ++ [s] else dest) := rfl

theorem pullCols_mono (snap : List Column) :
    ∀ (dest : List Column) (c : Column), c ∈ dest → c ∈ pullCols snap dest := by
  induction snap with
  | nil => intro dest c hc; exact hc
  | cons s ss ih =>
    intro dest c hc
    rw [pullCols_step]
    apply ih
    split_ifs with h
    · exact List.mem_append_left _ hc
    · exact hc

theorem pullCols_pulls (snap : List Column) :
    ∀ (dest : List Column) (c : Column), c ∈ snap →
      c.table.isSome = true → c.function = none → c ∈ pullCols snap dest := by
  induction snap with
  | nil => intro dest c hc _ _; simp at hc
  | cons s ss ih =>
    intro dest c hc hct hcf
    rw [pullCols_step]
    rcases List.mem_cons.mp hc with hc | hc
    · subst hc
      apply pullCols_mono
      by_cases hd : c ∈ dest
      · split_ifs with h
        · exact List.mem_append_left _ hd
        · exact hd
      · rw [if_pos (by simp [hct, hcf, hd])]
        exact List.mem_append_right _ (List.mem_singleton_self c)
    · exact ih _ c hc hct hcf

theorem processAnc_pushed (anc : Nat → List Nat) (snap : List Column) :
    ∀ (ancs : List Nat) (st : Nat → List Column),
      (processAnc anc snap st ancs).2 = ancs.filter (fun a => !(anc a).isEmpty)
  | [], st => rfl
  | a :: rest, st => by
    simp only [processAnc]
    by_cases h : (anc a).isEmpty
    · rw [if_pos h, processAnc_pushed anc snap rest st, List.filter_cons]
      simp [h]
    · rw [if_neg h]
      simp only
      rw [processAnc_pushed anc snap rest _, List.filter_cons]
      simp [h]

theorem processAnc_untouched (anc : Nat → List Nat) (snap : List Column) :
    ∀ (ancs : List Nat) (st : Nat → List Column) (x : Nat),
      x ∉ ancs.filter (fun a => !(anc a).isEmpty) →
      (processAnc anc snap st ancs).1 x = st x
  | [], st, x, _ => rfl
  | a :: rest, st, x, hx => by
    simp only [processAnc]
    by_cases h : (anc a).isEmpty
    · rw [if_pos h]
      apply processAnc_untouched anc snap rest st x
      intro hmem
      apply hx
      rw [List.filter_cons]
      simp only [h]
      simpa using hmem
    · rw [if_neg h]
      simp only
      have hxa : x ≠ a ∧ x ∉ rest.filter (fun a => !(anc a).isEmpty) := by
        rw [List.filter_cons] at hx
        simp only [h] at hx
        constructor
        · intro hxe
          exact hx (by simp [hxe])
        · intro hmem
          exact hx (by simp [hmem])
      rw [processAnc_untouched anc snap rest _ x hxa.2]
      unfold updateCols
      rw [if_neg hxa.1]
  termination_by ancs => ancs.length

theorem processAnc_mono (anc : Nat → List Nat) (snap : List Column) :
    ∀ (ancs : List Nat) (st : Nat → List Column) (x : Nat) (c : Column),
      c ∈ st x → c ∈ (processAnc anc snap st ancs).1 x
  | [], st, x, c, hc => hc
  | a :: rest, st, x, c, hc => by
    simp only [processAnc]
    by_cases h : (anc a).isEmpty
    · rw [if_pos h]
      exact processAnc_mono anc snap rest st x c hc
    · rw [if_neg h]
      simp only
      apply processAnc_mono anc snap rest _ x c
      unfold updateCols
      split_ifs with hxa
      · subst hxa
        exact pullCols_mono snap (st x) c hc
      · exact hc

theorem processAnc_pulls (anc : Nat → List Nat) (snap : List Column) :
    ∀ (ancs : List Nat) (st : Nat → List Column) (a : Nat),
      a ∈ ancs → (anc a).isEmpty = false →
      ∀ c ∈ snap, c.table.isSome = true → c.function = none →
        c ∈ (processAnc anc snap st ancs).1 a
  | [], st, a, ha, _, c, hcs, hct, hcf => absurd ha (List.not_mem_nil a)
  | a0 :: rest, st, a, ha, hane, c, hcs, hct, hcf => by
    simp only [processAnc]
    rcases List.mem_cons.mp ha with hae | hae
    · subst hae
      rw [if_neg (by rw [hane]; exact Bool.false_ne_true)]
      simp only
      apply processAnc_mono anc snap rest _ a c
      unfold updateCols
      rw [if_pos rfl]
      exact pullCols_pulls snap (st a) c hcs hct hcf
    · by_cases h : (anc a0).isEmpty
      · rw [if_pos h]
        exact processAnc_pulls anc snap rest st a hae hane c hcs hct hcf
      · rw [if_neg h]
        simp only
        exact processAnc_pulls anc snap rest _ a hae hane c hcs hct hcf

end Mir

end Distributary

namespace Distributary

namespace Mir

/-- The table-qualified, non-function columns of `d` are all present at
`a`. -/
def QualSub (st : Nat → List Column) (d a : Nat) : Prop :=
  ∀ c ∈ st d, c.table.isSome = true → c.function = none → c ∈ st a

/-- Worklist invariant: for every processed node and non-base ancestor,
either the pulled-column inclusion already holds or the node is queued for
reprocessing; and every non-base ancestor of a processed node has been
processed or is queued. -/
def PullInv (anc : Nat → List Nat) (st : Nat → List Column)
    (queue popped : List Nat) : Prop :=
  (∀ d ∈ popped, ∀ a ∈ anc d, anc a ≠ [] → (QualSub st d a ∨ d ∈ queue)) ∧
  (∀ d ∈ popped, ∀ a ∈ anc d, anc a ≠ [] → (a ∈ popped ∨ a ∈ queue))

theorem isEmpty_false_of_ne_nil {l : List Nat} (h : l ≠ []) : l.isEmpty = false := by
  cases l with
  | nil => exact absurd rfl h
  | cons x xs => rfl

theorem pullInv_step (anc : Nat → List Nat) (st : Nat → List Column)
    (d : Nat) (rest popped : List Nat)
    (hself : d ∉ anc d)
    (hinv : PullInv anc st (d :: rest) popped) :
    PullInv anc
      (processAnc anc (st d) st (anc d)).1
      ((processAnc anc (st d) st (anc d)).2.reverse ++ rest)
      (popped ++ [d]) := by
  have hpk := processAnc_pushed anc (st d) (anc d) st
  have hd2 : (processAnc anc (st d) st (anc d)).1 d = st d := by
    apply processAnc_untouched
    intro hmem
    exact hself (List.mem_of_mem_filter hmem)
  have hpushmem : ∀ x, x ∈ (anc d).filter (fun a => !(anc a).isEmpty) →
      x ∈ (processAnc anc (st d) st (anc d)).2.reverse ++ rest := by
    intro x hx
    apply List.mem_append_left
    rw [List.mem_reverse, hpk]
    exact hx
  have hQd : ∀ a ∈ anc d, anc a ≠ [] →
      QualSub (processAnc anc (st d) st (anc d)).1 d a := by
    intro a ha hane c hc hct hcf
    rw [hd2] at hc
    exact processAnc_pulls anc (st d) (anc d) st a ha
      (isEmpty_false_of_ne_nil hane) c hc hct hcf
  constructor
  · intro d0 hd0 a ha hane
    rcases List.mem_append.mp hd0 with hd0 | hd0
    · rcases hinv.1 d0 hd0 a ha hane with hq | hqm
      · by_cases hp : d0 ∈ (anc d).filter (fun a => !(anc a).isEmpty)
        · exact Or.inr (hpushmem d0 hp)
        · left
          intro c hc hct hcf
          rw [processAnc_untouched anc (st d) (anc d) st d0 hp] at hc
          exact processAnc_mono anc (st d) (anc d) st a c (hq c hc hct hcf)
      · rcases List.mem_cons.mp hqm with hqm | hqm
        · subst hqm
          exact Or.inl (hQd a ha hane)
        · exact Or.inr (List.mem_append_right _ hqm)
    · rw [List.mem_singleton.mp hd0]
      rw [List.mem_singleton.mp hd0] at ha
      exact Or.inl (hQd a ha hane)
  · intro d0 hd0 a ha hane
    rcases List.mem_append.mp hd0 with hd0 | hd0
    · rcases hinv.2 d0 hd0 a ha hane with hm | hm
      · exact Or.inl (List.mem_append_left _ hm)
      · rcases List.mem_cons.mp hm with hm | hm
        · exact Or.inl (List.mem_append_right _ (by rw [hm]; exact List.mem_singleton_self d))
        · exact Or.inr (List.mem_append_right _ hm)
    · rw [List.mem_singleton.mp hd0] at ha
      refine Or.inr (hpushmem a ?_)
      rw [List.mem_filter]
      exact ⟨ha, by rw [isEmpty_false_of_ne_nil hane]; rfl⟩

theorem runPull_inv (anc : Nat → List Nat) (ht : Nat → Nat)
    (hrank : ∀ d a, a ∈ anc d → ht a < ht d) :
    ∀ (fuel : Nat) (st : Nat → List Column) (queue popped : List Nat)
      (st2 : Nat → List Column) (popped2 : List Nat),
      runPull anc fuel st queue popped = some (st2, popped2) →
      PullInv anc st queue popped →
      PullInv anc st2 [] popped2
        ∧ (∀ x, x ∈ queue ∨ x ∈ popped → x ∈ popped2) := by
  intro fuel
  induction fuel with
  | zero =>
    intro st queue popped st2 popped2 hr hinv
    cases queue with
    | nil =>
      simp only [runPull, Option.some.injEq, Prod.mk.injEq] at hr
      obtain ⟨h1, h2⟩ := hr
      subst h1
      subst h2
      refine ⟨hinv, ?_⟩
      intro x hx
      rcases hx with hx | hx
      · simp at hx
      · exact hx
    | cons dd rest => exact absurd hr (by simp [runPull])
  | succ fuel ih =>
    intro st queue popped st2 popped2 hr hinv
    cases queue with
    | nil =>
      simp only [runPull, Option.some.injEq, Prod.mk.injEq] at hr
      obtain ⟨h1, h2⟩ := hr
      subst h1
      subst h2
      refine ⟨hinv, ?_⟩
      intro x hx
      rcases hx with hx | hx
      · simp at hx
      · exact hx
    | cons dd rest =>
      have hself : dd ∉ anc dd := fun hmem =>
        absurd (hrank dd dd hmem) (Nat.lt_irrefl _)
      have hstep := pullInv_step anc st dd rest popped hself hinv
      have hrec : runPull anc fuel (processAnc anc (st dd) st (anc dd)).1
          ((processAnc anc (st dd) st (anc dd)).2.reverse ++ rest)
          (popped ++ [dd]) = some (st2, popped2) := hr
      obtain ⟨hinv2, hmem2⟩ := ih _ _ _ st2 popped2 hrec hstep
      refine ⟨hinv2, ?_⟩
      intro x hx
      rcases hx with hx | hx
      · rcases List.mem_cons.mp hx with hx | hx
        · exact hmem2 x (Or.inr (List.mem_append_right _ (by rw [hx]; exact List.mem_singleton_self dd)))
        · exact hmem2 x (Or.inl (List.mem_append_right _ hx))
      · exact hmem2 x (Or.inr (List.mem_append_left _ hx))

theorem sum_pow_lt (ht : Nat → Nat) (A : Nat) (d : Nat) (pushed : List Nat)
    (hsub : ∀ a ∈ pushed, ht a < ht d) (hlen : pushed.length ≤ A) :
    (pushed.map (fun n => (A + 1) ^ ht n)).sum < (A + 1) ^ ht d := by
  cases hd : ht d with
  | zero =>
    cases pushed with
    | nil => simp
    | cons p ps =>
      have hlt := hsub p (List.mem_cons_self p ps)
      rw [hd] at hlt
      omega
  | succ h =>
    have hb : ∀ x ∈ pushed.map (fun n => (A + 1) ^ ht n), x ≤ (A + 1) ^ h := by
      intro x hx
      obtain ⟨n, hn, hxe⟩ := List.mem_map.mp hx
      rw [← hxe]
      apply Nat.pow_le_pow_right (by omega)
      have hlt := hsub n hn
      rw [hd] at hlt
      omega
    have hsum := List.sum_le_card_nsmul _ _ hb
    rw [List.length_map, smul_eq_mul] at hsum
    have h1 : pushed.length * (A + 1) ^ h ≤ A * (A + 1) ^ h :=
      Nat.mul_le_mul_right _ hlen
    have h2 : A * (A + 1) ^ h < (A + 1) * (A + 1) ^ h :=
      (Nat.mul_lt_mul_right (Nat.pos_pow_of_pos h (by omega))).mpr
        (Nat.lt_succ_self A)
    have h3 : (A + 1) * (A + 1) ^ h = (A + 1) ^ (h + 1) := by
      rw [Nat.pow_succ, Nat.mul_comm]
    omega

theorem queueMeasure_step (ht : Nat → Nat) (A : Nat) (anc : Nat → List Nat)
    (hA : ∀ n, (anc n).length ≤ A)
    (hrank : ∀ d a, a ∈ anc d → ht a < ht d)
    (d : Nat) (rest : List Nat) (st : Nat → List Column) :
    queueMeasure ht A ((processAnc anc (st d) st (anc d)).2.reverse ++ rest)
      < queueMeasure ht A (d :: rest) := by
  have hpk := processAnc_pushed anc (st d) (anc d) st
  unfold queueMeasure
  rw [List.map_append, List.sum_append, List.map_cons, List.sum_cons,
    List.map_reverse, List.sum_reverse]
  have h1 : ((processAnc anc (st d) st (anc d)).2.map
      (fun n => (A + 1) ^ ht n)).sum < (A + 1) ^ ht d := by
    apply sum_pow_lt
    · intro a ha
      rw [hpk] at ha
      exact hrank d a (List.mem_of_mem_filter ha)
    · rw [hpk]
      exact le_trans (List.length_filter_le _ _) (hA d)
  omega

theorem runPull_total (anc : Nat → List Nat) (ht : Nat → Nat) (A : Nat)
    (hA : ∀ n, (anc n).length ≤ A)
    (hrank : ∀ d a, a ∈ anc d → ht a < ht d) :
    ∀ (fuel : Nat) (st : Nat → List Column) (queue popped : List Nat),
      queueMeasure ht A queue ≤ fuel →
      ∃ r, runPull anc fuel st queue popped = some r := by
  intro fuel
  induction fuel with
  | zero =>
    intro st queue popped hm
    cases queue with
    | nil => exact ⟨(st, popped), rfl⟩
    | cons d rest =>
      exfalso
      unfold queueMeasure at hm
      simp only [List.map_cons, List.sum_cons] at hm
      have h1 : 0 < (A + 1) ^ ht d := Nat.pos_pow_of_pos _ (by omega)
      omega
  | succ fuel ih =>
    intro st queue popped hm
    cases queue with
    | nil => exact ⟨(st, popped), rfl⟩
    | cons d rest =>
      have hstep := queueMeasure_step ht A anc hA hrank d rest st
      obtain ⟨r, hr⟩ := ih (processAnc anc (st d) st (anc d)).1
        ((processAnc anc (st d) st (anc d)).2.reverse ++ rest)
        (popped ++ [d]) (by omega)
      exact ⟨r, hr⟩

end Mir

end Distributary

namespace Distributary

namespace Mir

/-- C10: for an acyclic ancestor relation (witnessed by a rank function,
with ancestor fan-out bounded by `A`), `pull_required_base_columns`
terminates — the measure of the initial queue is sufficient fuel — and on
return every reached node with ancestors of its own contains every
table-qualified, non-function column of each of its descendants on an
ancestor path from the query leaf. -/
theorem pull_required_base_columns_spec
    (anc : Nat → List Nat) (ht : Nat → Nat) (A : Nat) (leaf : Nat)
    (st : Nat → List Column)
    (hrank : ∀ d a, a ∈ anc d → ht a < ht d)
    (hA : ∀ n, (anc n).length ≤ A) :
    ∃ st2 popped2,
      pullRequiredBaseColumns anc leaf st (queueMeasure ht A [leaf])
          = some (st2, popped2) ∧
      leaf ∈ popped2 ∧
      (∀ d ∈ popped2, ∀ a ∈ anc d, anc a ≠ [] → QualSub st2 d a) ∧
      (∀ d ∈ popped2, ∀ a ∈ anc d, anc a ≠ [] → a ∈ popped2) ∧
      (∀ d b, (d = leaf ∨ UpChain anc leaf d) → UpChain anc d b →
        ∀ c ∈ st2 d, c.table.isSome = true → c.function = none → c ∈ st2 b) := by
  obtain ⟨⟨st2, popped2⟩, hr⟩ :=
    runPull_total anc ht A hA hrank (queueMeasure ht A [leaf]) st [leaf] []
      (Nat.le_refl _)
  have hinv0 : PullInv anc st [leaf] [] := by
    constructor
    · intro d hd
      simp at hd
    · intro d hd
      simp at hd
  obtain ⟨hinv, hmem⟩ :=
    runPull_inv anc ht hrank _ st [leaf] [] st2 popped2 hr hinv0
  have hleaf : leaf ∈ popped2 := hmem leaf (Or.inl (List.mem_singleton_self leaf))
  have hclosure : ∀ d ∈ popped2, ∀ a ∈ anc d, anc a ≠ [] → a ∈ popped2 := by
    intro d hd a ha hane
    rcases hinv.2 d hd a ha hane with h | h
    · exact h
    · simp at h
  have hqual : ∀ d ∈ popped2, ∀ a ∈ anc d, anc a ≠ [] → QualSub st2 d a := by
    intro d hd a ha hane
    rcases hinv.1 d hd a ha hane with h | h
    · exact h
    · simp at h
  refine ⟨st2, popped2, hr, hleaf, hqual, hclosure, ?_⟩
  have hchain_mem : ∀ x y, UpChain anc x y → x ∈ popped2 → y ∈ popped2 := by
    intro x y hch
    induction hch with
    | single ha hane =>
      intro hx
      exact hclosure _ hx _ ha hane
    | cons ha hane hch2 ih =>
      intro hx
      exact ih (hclosure _ hx _ ha hane)
  have hchain_qual : ∀ x y, UpChain anc x y → x ∈ popped2 →
      ∀ c ∈ st2 x, c.table.isSome = true → c.function = none → c ∈ st2 y := by
    intro x y hch
    induction hch with
    | single ha hane =>
      intro hx c hc hct hcf
      exact hqual _ hx _ ha hane c hc hct hcf
    | cons ha hane hch2 ih =>
      intro hx c hc hct hcf
      exact ih (hclosure _ hx _ ha hane) c (hqual _ hx _ ha hane c hc hct hcf)
        hct hcf
  intro d b hd hch c hc hct hcf
  have hdp : d ∈ popped2 := by
    rcases hd with hd | hd
    · rw [hd]
      exact hleaf
    · exact hchain_mem leaf d hd hleaf
  exact hchain_qual d b hch hdp c hc hct hcf

/-- A concrete three-node MIR query: leaf 0 with ancestor 1, which has the
base 2 as its only ancestor. -/
def mirAnc : Nat → List Nat :=
  fun n => if n = 0 then [1] else if n = 1 then [2] else []

/-- Initial columns: the leaf projects the qualified column t.x. -/
def mirCols : Nat → List Column :=
  fun n => if n = 0 then [⟨"x", some "t", none⟩] else []

/-- Witness for C10 on the concrete query: the worklist terminates within
the measure-derived fuel and the pulled-column property holds. -/
theorem pull_required_base_columns_spec_spot :
    ∃ st2 popped2,
      pullRequiredBaseColumns mirAnc 0 mirCols
          (queueMeasure (fun n => 2 - n) 1 [0]) = some (st2, popped2) ∧
      0 ∈ popped2 ∧
      (∀ d ∈ popped2, ∀ a ∈ mirAnc d, mirAnc a ≠ [] → QualSub st2 d a) ∧
      (∀ d ∈ popped2, ∀ a ∈ mirAnc d, mirAnc a ≠ [] → a ∈ popped2) ∧
      (∀ d b, (d = 0 ∨ UpChain mirAnc 0 d) → UpChain mirAnc d b →
        ∀ c ∈ st2 d, c.table.isSome = true → c.function = none → c ∈ st2 b) :=
  pull_required_base_columns_spec mirAnc (fun n => 2 - n) 1 0 mirCols
    (by
      intro d a ha
      unfold mirAnc at ha
      by_cases h0 : d = 0
      · rw [if_pos h0] at ha
        rw [List.mem_singleton.mp ha, h0]
        decide
      · rw [if_neg h0] at ha
        by_cases h1 : d = 1
        · rw [if_pos h1] at ha
          rw [List.mem_singleton.mp ha, h1]
          decide
        · rw [if_neg h1] at ha
          simp at ha)
    (by
      intro n
      unfold mirAnc
      by_cases h0 : n = 0
      · simp [h0]
      · by_cases h1 : n = 1
        · simp [h0, h1]
        · simp [h0, h1])

end Mir

end Distributary
